import Mathlib

/-!
Verification of the env_tui core: the production line parser
(internal/parser/production.go), the document model
(internal/model/validation.go), the change stack
(internal/model/changestack.go) and the persistence protocol
(internal/storage/file.go), shallowly embedded over lists of characters.

Go strings are modelled as `List Char`.  Byte-level operations of the
source (indexing, `strings.Index`) act on ASCII data in every situation
the claims exercise, where byte positions and character positions
coincide, so the character-list model is faithful there.
-/

namespace EnvTui

/-- Go strings, modelled as lists of characters. -/
abbrev GoStr := List Char

/-- Embed a Lean string literal as a `GoStr`. -/
def gs (s : String) : GoStr := s.data

/-- The single-quote character, written via its code point. -/
def sq : Char := Char.ofNat 39

/-- Go `unicode.IsSpace`, by code point (the full Unicode white-space set
used by `strings.TrimSpace`). -/
def goIsSpace (c : Char) : Bool :=
  c.toNat = 0x20 || c.toNat = 0x9 || c.toNat = 0xA || c.toNat = 0xB ||
  c.toNat = 0xC || c.toNat = 0xD || c.toNat = 0x85 || c.toNat = 0xA0 ||
  c.toNat = 0x1680 || (0x2000 ≤ c.toNat && c.toNat ≤ 0x200A) ||
  c.toNat = 0x2028 || c.toNat = 0x2029 || c.toNat = 0x202F ||
  c.toNat = 0x205F || c.toNat = 0x3000

/-- Go `unicode.IsLetter`, by code point.  Exact on code points below
U+0100 (ASCII letters plus the Latin-1 letters); the inputs appearing in
this development stay below U+0100, so higher code points are mapped to
false. -/
def goIsLetter (c : Char) : Bool :=
  (0x41 ≤ c.toNat && c.toNat ≤ 0x5A) || (0x61 ≤ c.toNat && c.toNat ≤ 0x7A) ||
  c.toNat = 0xAA || c.toNat = 0xB5 || c.toNat = 0xBA ||
  (0xC0 ≤ c.toNat && c.toNat ≤ 0xD6) || (0xD8 ≤ c.toNat && c.toNat ≤ 0xF6) ||
  (0xF8 ≤ c.toNat && c.toNat ≤ 0xFF)

/-- Go `unicode.IsDigit`, by code point.  Exact on code points below
U+0100 (only the ASCII digits are in category Nd there). -/
def goIsDigit (c : Char) : Bool :=
  0x30 ≤ c.toNat && c.toNat ≤ 0x39

/-- Go `strings.ToLower`, per character, on the ASCII range (the range the
claims exercise). -/
def goToLower (c : Char) : Char :=
  if 0x41 ≤ c.toNat ∧ c.toNat ≤ 0x5A then Char.ofNat (c.toNat + 0x20) else c

/-- Go `strings.ToUpper`, per character, on the ASCII range. -/
def goToUpper (c : Char) : Char :=
  if 0x61 ≤ c.toNat ∧ c.toNat ≤ 0x7A then Char.ofNat (c.toNat - 0x20) else c

/-- Drop leading white space (the left half of `strings.TrimSpace`). -/
def trimLeft (l : GoStr) : GoStr := l.dropWhile goIsSpace

/-- Drop trailing white space (the right half of `strings.TrimSpace`). -/
def trimRight : GoStr → GoStr
  | [] => []
  | c :: cs =>
    match trimRight cs with
    | [] => if goIsSpace c then [] else [c]
    | r => c :: r

/-- Go `strings.TrimSpace`. -/
def trimSpace (l : GoStr) : GoStr := trimLeft (trimRight l)

/-- Go `strings.HasPrefix`. -/
def startsWith : GoStr → GoStr → Bool
  | [], _ => true
  | _ :: _, [] => false
  | p :: ps, c :: cs => p = c && startsWith ps cs

/-- Go `strings.Split(input, "\n")`. -/
def splitNl : GoStr → List GoStr
  | [] => [[]]
  | c :: cs =>
    if c = '\n' then [] :: splitNl cs
    else
      match splitNl cs with
      | [] => [[c]]
      | r :: rs => (c :: r) :: rs

/-- Go `strings.Index(l, string(c))` for a one-character needle: index of
the first occurrence, `none` when absent. -/
def idxOf (c : Char) : GoStr → Option Nat
  | [] => none
  | x :: xs => if x = c then some 0 else (idxOf c xs).map (· + 1)

/-- Go `strings.Contains(l, sub)`. -/
def containsSub (l sub : GoStr) : Bool :=
  match l with
  | [] => sub = []
  | _ :: rest => startsWith sub l || containsSub rest sub

/-! ## The data model (internal/model, part_002) -/

/-- `EntryType` from the model package. -/
inductive EntryType where
  | keyValueEntry
  | commentEntry
  | blankEntry
deriving DecidableEq, Repr

/-- `Entry` from the model package.  The Go field `Type` is called
`EType` here because `Type` is reserved in Lean. -/
structure Entry where
  EType : EntryType
  Key : GoStr := []
  Value : GoStr := []
  Comment : GoStr := []
  Line : Nat := 0
  Exported : Bool := false
  IsSecret : Bool := false
deriving DecidableEq, Repr

/-- `EnvFile` from the model package. -/
structure EnvFile where
  Path : GoStr := []
  Entries : List Entry
  originalHash : GoStr := []
  isModified : Bool := false
deriving DecidableEq, Repr

/-- `isSecretKey` from internal/parser/parser.go. -/
def isSecretKey (key : GoStr) : Bool :=
  let u := key.map goToUpper
  [gs "PASSWORD", gs "SECRET", gs "TOKEN", gs "KEY", gs "PRIVATE",
   gs "API_KEY", gs "AUTH", gs "CREDENTIAL", gs "CERT"].any
    fun kw => containsSub u kw

/-- The per-character test of `isValidKey`: letter, digit or underscore. -/
def isKeyChar (c : Char) : Bool :=
  goIsLetter c || goIsDigit c || c = '_'

/-- `isValidKey` from internal/parser/production.go: the first character
must be a letter or underscore, and every character a letter, digit or
underscore. -/
def isValidKey (key : GoStr) : Bool :=
  match key with
  | [] => false
  | c :: cs => (goIsLetter c || c = '_') && (c :: cs).all isKeyChar

/-- The escape table of `parseQuotedValue`: the character written for the
escape sequence backslash-`c`. -/
def escChar (c : Char) : Char :=
  if c = 'n' then '\n'
  else if c = 't' then '\t'
  else if c = 'r' then '\r'
  else if c = '\\' then '\\'
  else c

/-- The inner character loop of `parseQuotedValue` from production.go,
over one physical line.  `.inl v` means the closing quote was found, the
decoded text of this line being `v`; `.inr v` means the line ended
without it.  The Go loop appends to an accumulator; building the decoded
suffix bottom-up is the same computation. -/
def scanChars (quote : Char) : GoStr → GoStr ⊕ GoStr
  | [] => .inr []
  | [c] =>
    if c = quote then .inl [] else .inr [c]
  | c :: d :: cs =>
    if c = '\\' then
      match scanChars quote cs with
      | .inl v => .inl (escChar d :: v)
      | .inr v => .inr (escChar d :: v)
    else if c = quote then .inl []
    else
      match scanChars quote (d :: cs) with
      | .inl v => .inl (c :: v)
      | .inr v => .inr (c :: v)

/-- The line loop of `parseQuotedValue` from production.go: scan the rest
of the current line; when it ends without a closing quote, append a
literal newline and continue on the next physical line, counting the
lines consumed. -/
def scanLines (quote : Char) : GoStr → List GoStr → GoStr × Nat
  | cur, [] =>
    match scanChars quote cur with
    | .inl v => (v, 0)
    | .inr v => (v, 0)
  | cur, l :: rest =>
    match scanChars quote cur with
    | .inl v => (v, 0)
    | .inr v =>
      let r := scanLines quote l rest
      (v ++ '\n' :: r.1, r.2 + 1)

/-- `parseQuotedValue` from production.go: skip the opening quote and
scan; `rest` holds the physical lines after the current one. -/
def parseQuotedValue (valueStr : GoStr) (quote : Char) (rest : List GoStr) :
    GoStr × Nat :=
  scanLines quote valueStr.tail rest

/-- `parseValue` from production.go; `rest` holds the physical lines
after the current one, and the returned number is how many of them a
multiline quoted value consumed. -/
def parseValue (valueStr : GoStr) (rest : List GoStr) : GoStr × Nat :=
  let v := trimSpace valueStr
  if v = [] then ([], 0)
  else if v.head! = '"' ∨ v.head! = sq then parseQuotedValue v v.head! rest
  else
    match idxOf '#' v with
    | some idx => (trimSpace (v.take idx), 0)
    | none => (v, 0)

/-- The line loop of `Parse` from production.go; `i` is the 0-based index
of the current line in the original input.  The Go loop variable jumps
over lines consumed by multiline values (`i += consumed`); the recursion
here is driven by a fuel argument, instantiated by `parseLines` below
with the number of lines, a bound the loop never exceeds. -/
def parseLinesF : Nat → List GoStr → Nat → List Entry
  | 0, _, _ => []
  | _ + 1, [], _ => []
  | fuel + 1, line :: rest, i =>
    let trimmed := trimSpace line
    if trimmed = [] then
      ⟨.blankEntry, [], [], [], i + 1, false, false⟩ :: parseLinesF fuel rest (i + 1)
    else if startsWith (gs "#") trimmed then
      ⟨.commentEntry, [], [], line, i + 1, false, false⟩ :: parseLinesF fuel rest (i + 1)
    else
      let ex := startsWith (gs "export ") trimmed
      let trimmed2 := if ex then trimSpace (trimmed.drop 7) else trimmed
      match idxOf '=' trimmed2 with
      | none => parseLinesF fuel rest (i + 1)
      | some eqIdx =>
        let key := trimSpace (trimmed2.take eqIdx)
        if key = [] ∨ ¬ isValidKey key then parseLinesF fuel rest (i + 1)
        else
          let vres := parseValue (trimmed2.drop (eqIdx + 1)) rest
          ⟨.keyValueEntry, key, vres.1, [], i + vres.2 + 1, ex, isSecretKey key⟩ ::
            parseLinesF fuel (rest.drop vres.2) (i + vres.2 + 1)

/-- The line loop of `Parse`, at its actual fuel. -/
def parseLines (lines : List GoStr) (i : Nat) : List Entry :=
  parseLinesF lines.length lines i

/-- The document built by `Parse` from production.go. -/
def parseDoc (input : GoStr) : EnvFile :=
  ⟨[], parseLines (splitNl input) 0, [], false⟩

/-- `Parse` from production.go: builds the document and returns a nil
error (`return envFile, nil`). -/
def Parse (input : GoStr) : Except GoStr EnvFile :=
  .ok (parseDoc input)

/-! ## Document model operations (internal/model/validation.go) -/

/-- The match test of the key-based loops in validation.go: a key-value
entry whose key equals the argument. -/
def entryMatches (key : GoStr) (e : Entry) : Bool :=
  decide (e.EType = .keyValueEntry) && decide (e.Key = key)

/-- `GetEntry` from validation.go: the first matching entry. -/
def GetEntry (ef : EnvFile) (key : GoStr) : Option Entry :=
  ef.Entries.find? (entryMatches key)

/-- `AddEntry` from validation.go. -/
def AddEntry (ef : EnvFile) (e : Entry) : EnvFile :=
  { ef with Entries := ef.Entries ++ [e] }

/-- The loop of `UpdateEntry` from validation.go: set the value of the
first matching entry, reporting whether one was found. -/
def updateLoop (key value : GoStr) : List Entry → List Entry × Bool
  | [] => ([], false)
  | e :: es =>
    if entryMatches key e then ({ e with Value := value } :: es, true)
    else
      let r := updateLoop key value es
      (e :: r.1, r.2)

/-- `UpdateEntry` from validation.go. -/
def UpdateEntry (ef : EnvFile) (key value : GoStr) : EnvFile × Bool :=
  let r := updateLoop key value ef.Entries
  ({ ef with Entries := r.1 }, r.2)

/-- The loop of `DeleteEntry` from validation.go: remove the first
matching entry, reporting whether one was found. -/
def deleteLoop (key : GoStr) : List Entry → List Entry × Bool
  | [] => ([], false)
  | e :: es =>
    if entryMatches key e then (es, true)
    else
      let r := deleteLoop key es
      (e :: r.1, r.2)

/-- `DeleteEntry` from validation.go. -/
def DeleteEntry (ef : EnvFile) (key : GoStr) : EnvFile × Bool :=
  let r := deleteLoop key ef.Entries
  ({ ef with Entries := r.1 }, r.2)

/-- `fuzzyMatch` from validation.go: every character of `pattern` must
appear in `text`, in order (the greedy single-pass scan of the source). -/
def fuzzyLoop : GoStr → GoStr → Bool
  | _, [] => true
  | [], _ :: _ => false
  | t :: ts, p :: ps => if t = p then fuzzyLoop ts ps else fuzzyLoop ts (p :: ps)

/-- `fuzzyMatch` from validation.go. -/
def fuzzyMatch (text pattern : GoStr) : Bool :=
  if pattern = [] then true else fuzzyLoop text pattern

/-- `FilterEntries` from validation.go. -/
def FilterEntries (ef : EnvFile) (query : GoStr) : List Entry :=
  let kvEntries := ef.Entries.filter fun e => decide (e.EType = .keyValueEntry)
  if query = [] then kvEntries
  else
    let q := query.map goToLower
    kvEntries.filter fun e =>
      fuzzyMatch (e.Key.map goToLower) q || fuzzyMatch (e.Value.map goToLower) q

/-! ## Change stack (internal/model/changestack.go) -/

/-- `ChangeType` from changestack.go. -/
inductive ChangeType where
  | add
  | update
  | delete
deriving DecidableEq, Repr

/-- `Change` from changestack.go.  The Go field `Type` is called `CType`
here, and the entry pointer is an optional entry value. -/
structure Change where
  CType : ChangeType := .add
  FilePath : GoStr := []
  CEntry : Option Entry := none
  OldValue : GoStr := []
deriving DecidableEq, Repr

/-- `ChangeStack` from changestack.go.  `current` and `maxSize` are Go
ints; `current` uses the sentinel -1 for the empty position. -/
structure ChangeStack where
  changes : List Change
  current : Int
  maxSize : Int
deriving DecidableEq, Repr

/-- `NewChangeStack` from changestack.go. -/
def NewChangeStack (maxSize : Int) : ChangeStack :=
  ⟨[], -1, maxSize⟩

/-- `Push` from changestack.go: truncate the redo tail, append, advance,
then evict the oldest element when over capacity. -/
def Push (cs : ChangeStack) (change : Change) : ChangeStack :=
  let cs1 :=
    if cs.current < (cs.changes.length : Int) - 1 then
      { cs with changes := cs.changes.take (cs.current + 1).toNat }
    else cs
  let cs2 := { cs1 with changes := cs1.changes ++ [change], current := cs1.current + 1 }
  if (cs2.changes.length : Int) > cs2.maxSize then
    { cs2 with changes := cs2.changes.tail, current := cs2.current - 1 }
  else cs2

/-- `Undo` from changestack.go: the Go pair `(*Change, bool)` is modelled
as an optional change, paired with the stack after the call. -/
def Undo (cs : ChangeStack) : Option Change × ChangeStack :=
  if cs.current < 0 then (none, cs)
  else (cs.changes.get? cs.current.toNat, { cs with current := cs.current - 1 })

/-- `Redo` from changestack.go. -/
def Redo (cs : ChangeStack) : Option Change × ChangeStack :=
  if cs.current ≥ (cs.changes.length : Int) - 1 then (none, cs)
  else (cs.changes.get? (cs.current + 1).toNat, { cs with current := cs.current + 1 })

/-- `CanUndo` from changestack.go. -/
def CanUndo (cs : ChangeStack) : Bool :=
  cs.current ≥ 0

/-- `CanRedo` from changestack.go. -/
def CanRedo (cs : ChangeStack) : Bool :=
  cs.current < (cs.changes.length : Int) - 1

/-! ## Serialization and persistence (part_002 Entry.String, storage/file.go) -/

/-- `Entry.String` from the model package (part_002). -/
def entryString (e : Entry) : GoStr :=
  match e.EType with
  | .keyValueEntry =>
    (if e.Exported then gs "export " else []) ++ e.Key ++ gs "=" ++ e.Value ++
      (if e.Comment ≠ [] then gs " " ++ e.Comment else [])
  | .commentEntry => e.Comment
  | .blankEntry => []

/-- The write loop of `WriteFile` from storage/file.go: each entry's text
followed by a newline. -/
def serializeEntries : List Entry → GoStr
  | [] => []
  | e :: es => entryString e ++ '\n' :: serializeEntries es

/-- A flat filesystem: contents indexed by path, `none` when absent. -/
def FS := GoStr → Option GoStr

/-- Store a file. -/
def fsWrite (fs : FS) (path content : GoStr) : FS :=
  fun q => if q = path then some content else fs q

/-- Remove a file (`os.Remove`; removing a missing file is modelled as a
plain removal, the code discards the error of this cleanup call). -/
def fsRemove (fs : FS) (path : GoStr) : FS :=
  fun q => if q = path then none else fs q

/-- `CreateBackup` from storage/backup.go: no-op when the target does not
exist, otherwise copy its bytes to the timestamped sibling. -/
def CreateBackup (fs : FS) (path ts : GoStr) : FS :=
  match fs path with
  | none => fs
  | some content => fsWrite fs (path ++ gs ".backup." ++ ts) content

/-- Outcome oracle for the fallible filesystem steps of `WriteFile`, in
the order the code performs them. -/
structure WriteOutcome where
  backupOk : Bool
  createTmpOk : Bool
  writeOk : Bool
  syncOk : Bool
  renameOk : Bool

/-- `WriteFile` from storage/file.go over the flat filesystem: backup,
create the `.tmp` sibling, write every entry, sync, and atomically rename
over the target; on rename failure the temp file is removed and the
error surfaced.  The returned option is the Go `error` result. -/
def WriteFile (fs : FS) (ef : EnvFile) (ts : GoStr) (oc : WriteOutcome) :
    FS × Option GoStr :=
  if ¬ oc.backupOk then (fs, some (gs "failed to create backup")) else
  let fs1 := CreateBackup fs ef.Path ts
  let tempPath := ef.Path ++ gs ".tmp"
  if ¬ oc.createTmpOk then (fs1, some (gs "failed to create temp file")) else
  let fs2 := fsWrite fs1 tempPath []
  if ¬ oc.writeOk then (fs2, some (gs "failed to write entry")) else
  let fs3 := fsWrite fs2 tempPath (serializeEntries ef.Entries)
  if ¬ oc.syncOk then (fs3, some (gs "failed to sync temp file")) else
  if ¬ oc.renameOk then (fsRemove fs3 tempPath, some (gs "failed to rename temp file"))
  else (fsWrite (fsRemove fs3 tempPath) ef.Path (serializeEntries ef.Entries), none)

/-- The `(key, value, exported)` tuples of the key-value entries of a
document, in document order. -/
def kvTuples (es : List Entry) : List (GoStr × GoStr × Bool) :=
  (es.filter fun e => decide (e.EType = .keyValueEntry)).map
    fun e => (e.Key, e.Value, e.Exported)

/-- Shape invariant of every entry the parser produces. -/
def EntryWF (e : Entry) : Prop :=
  match e.EType with
  | .keyValueEntry => isValidKey e.Key = true ∧ e.Comment = []
  | .commentEntry => startsWith (gs "#") (trimSpace e.Comment) = true ∧ '\n' ∉ e.Comment
  | .blankEntry => True

/-- A value that the unquoted serialization re-reads verbatim: unchanged
by TrimSpace, free of newlines and hashes, and not starting with a quote
character. -/
def ValueOK (v : GoStr) : Prop :=
  trimSpace v = v ∧ '\n' ∉ v ∧ '#' ∉ v ∧ v.head? ≠ some '"' ∧ v.head? ≠ some sq

instance (v : GoStr) : Decidable (ValueOK v) := by
  unfold ValueOK
  infer_instance

/-- The escape-decoding the quoted value reader performs, restated over
a quoted body: each backslash followed by a character becomes that
escape's decoded character, every other character passes through. -/
def decodeEscapes : GoStr → GoStr
  | [] => []
  | [c] => [c]
  | c :: d :: rest =>
    if c = '\\' then escChar d :: decodeEscapes rest
    else c :: decodeEscapes (d :: rest)

/-- A quoted body the scanner consumes without reaching its end: no
unescaped occurrence of the closing quote or of a dangling backslash. -/
def quotedBodyOK (quote : Char) : GoStr → Bool
  | [] => true
  | [c] => decide (c ≠ quote) && decide (c ≠ '\\')
  | c :: d :: rest =>
    if c = '\\' then quotedBodyOK quote rest
    else decide (c ≠ quote) && quotedBodyOK quote (d :: rest)

/-- Modelled from the spec: the ASCII identifier shape
`[A-Za-z_][A-Za-z0-9_]*` that the data-model section prescribes for
structurally valid keys. -/
def specAsciiIdent : GoStr → Bool
  | [] => false
  | c :: cs =>
    (c.isAlpha || c = '_') && cs.all fun ch => ch.isAlpha || ch.isDigit || ch = '_'

/-! ## Parse step lemmas -/

/-- A whitespace-only line becomes a blank entry. -/
theorem parseLines_blank (line : GoStr) (rest : List GoStr) (i : Nat)
    (h : trimSpace line = []) :
    parseLines (line :: rest) i =
      ⟨.blankEntry, [], [], [], i + 1, false, false⟩ :: parseLines rest (i + 1) := by
  show parseLinesF (rest.length + 1) (line :: rest) i = _
  simp only [parseLinesF, h, if_pos rfl]
  rfl

/-- A line whose trimmed text starts with a hash becomes a comment entry
holding the original line. -/
theorem parseLines_comment {line : GoStr} (rest : List GoStr) (i : Nat)
    (hne : trimSpace line ≠ [])
    (hc : startsWith (gs "#") (trimSpace line) = true) :
    parseLines (line :: rest) i =
      ⟨.commentEntry, [], [], line, i + 1, false, false⟩ :: parseLines rest (i + 1) := by
  show parseLinesF (rest.length + 1) (line :: rest) i = _
  simp only [parseLinesF, hne, hc, if_neg hne, if_pos rfl, ite_true, ite_false]
  rfl

/-- A line with no equals sign after export stripping produces no entry. -/
theorem parseLines_skipNoEq {line : GoStr} (rest : List GoStr) (i : Nat)
    (hne : trimSpace line ≠ [])
    (hc : startsWith (gs "#") (trimSpace line) = false)
    (heq : idxOf '='
      (if startsWith (gs "export ") (trimSpace line) then
        trimSpace ((trimSpace line).drop 7) else trimSpace line) = none) :
    parseLines (line :: rest) i = parseLines rest (i + 1) := by
  show parseLinesF (rest.length + 1) (line :: rest) i = _
  simp only [parseLinesF, if_neg hne, hc, Bool.false_eq_true, if_neg, ite_false, heq]
  rfl

/-- A line whose left-hand side trims to an empty or invalid key produces
no entry. -/
theorem parseLines_skipBadKey {line t2 : GoStr} (rest : List GoStr) (i eqIdx : Nat)
    (hne : trimSpace line ≠ [])
    (hc : startsWith (gs "#") (trimSpace line) = false)
    (ht2 : (if startsWith (gs "export ") (trimSpace line) then
        trimSpace ((trimSpace line).drop 7) else trimSpace line) = t2)
    (heq : idxOf '=' t2 = some eqIdx)
    (hbad : trimSpace (t2.take eqIdx) = [] ∨ isValidKey (trimSpace (t2.take eqIdx)) = false) :
    parseLines (line :: rest) i = parseLines rest (i + 1) := by
  show parseLinesF (rest.length + 1) (line :: rest) i = _
  simp only [parseLinesF, if_neg hne, hc, Bool.false_eq_true, ite_false, ht2, heq]
  have : (trimSpace (t2.take eqIdx) = [] ∨ ¬ isValidKey (t2.take eqIdx |> trimSpace) = true) := by
    rcases hbad with h | h
    · exact Or.inl h
    · exact Or.inr (by simp [h])
  rw [if_pos this]
  rfl

/-- A key=value line whose value consumes no extra physical line becomes
a key-value entry followed by the parse of the remaining lines. -/
theorem parseLines_kv {line t2 v : GoStr} (rest : List GoStr) (i eqIdx : Nat) (ex : Bool)
    (hne : trimSpace line ≠ [])
    (hc : startsWith (gs "#") (trimSpace line) = false)
    (hex : startsWith (gs "export ") (trimSpace line) = ex)
    (ht2 : (if ex then trimSpace ((trimSpace line).drop 7) else trimSpace line) = t2)
    (heq : idxOf '=' t2 = some eqIdx)
    (hknn : trimSpace (t2.take eqIdx) ≠ [])
    (hkey : isValidKey (trimSpace (t2.take eqIdx)) = true)
    (hv : parseValue (t2.drop (eqIdx + 1)) rest = (v, 0)) :
    parseLines (line :: rest) i =
      ⟨.keyValueEntry, trimSpace (t2.take eqIdx), v, [], i + 1, ex,
        isSecretKey (trimSpace (t2.take eqIdx))⟩ :: parseLines rest (i + 1) := by
  show parseLinesF (rest.length + 1) (line :: rest) i = _
  simp only [parseLinesF, if_neg hne, hc, Bool.false_eq_true, ite_false, hex, ht2, heq, hv]
  rw [if_neg]
  · rfl
  · rintro (h | h)
    · exact hknn h
    · rw [hkey] at h
      exact h rfl

/-! ## String lemmas -/

theorem gs_hash : gs "#" = ['#'] := rfl

theorem gs_export : gs "export " = ['e', 'x', 'p', 'o', 'r', 't', ' '] := rfl

theorem trimLeft_cons_of_nonspace {x : Char} (xs : GoStr) (h : goIsSpace x = false) :
    trimLeft (x :: xs) = x :: xs := by
  simp [trimLeft, List.dropWhile_cons, h]

theorem trimLeft_cons_of_space {x : Char} (xs : GoStr) (h : goIsSpace x = true) :
    trimLeft (x :: xs) = trimLeft xs := by
  simp [trimLeft, List.dropWhile_cons, h]

theorem trimRight_cons_of_nonspace {x : Char} (xs : GoStr) (h : goIsSpace x = false) :
    trimRight (x :: xs) = x :: trimRight xs := by
  rw [trimRight]
  rcases hr : trimRight xs with _ | ⟨r, rs⟩
  · simp [h]
  · rfl

theorem trimRight_append {y : GoStr} (x : GoStr) (h : trimRight y ≠ []) :
    trimRight (x ++ y) = x ++ trimRight y := by
  induction x with
  | nil => rfl
  | cons a as ih =>
    rw [List.cons_append, trimRight, ih]
    rcases hy : trimRight y with _ | ⟨r, rs⟩
    · exact absurd hy h
    · rcases as with _ | ⟨b, bs⟩ <;> rfl

theorem trimRight_idem (l : GoStr) : trimRight (trimRight l) = trimRight l := by
  induction l with
  | nil => rfl
  | cons x xs ih =>
    rw [trimRight]
    rcases hy : trimRight xs with _ | ⟨r, rs⟩
    · by_cases hx : goIsSpace x <;> simp [hx, trimRight]
    · rw [hy] at ih
      show trimRight (x :: r :: rs) = x :: r :: rs
      rw [trimRight, ih]

theorem trimLeft_append {v : GoStr} (w : GoStr) (h : trimLeft v ≠ []) :
    trimLeft (v ++ w) = trimLeft v ++ w := by
  induction v with
  | nil => exact absurd rfl h
  | cons a as ih =>
    by_cases ha : goIsSpace a
    · rw [trimLeft_cons_of_space _ ha] at h
      rw [List.cons_append, trimLeft_cons_of_space _ ha, trimLeft_cons_of_space _ ha, ih h]
    · simp only [Bool.not_eq_true] at ha
      rw [List.cons_append, trimLeft_cons_of_nonspace _ ha, trimLeft_cons_of_nonspace _ ha,
        List.cons_append]

theorem trimLeft_idem (l : GoStr) : trimLeft (trimLeft l) = trimLeft l := by
  induction l with
  | nil => rfl
  | cons x xs ih =>
    by_cases hx : goIsSpace x
    · rw [trimLeft_cons_of_space _ hx]
      exact ih
    · simp only [Bool.not_eq_true] at hx
      rw [trimLeft_cons_of_nonspace _ hx, trimLeft_cons_of_nonspace _ hx]

theorem trim_comm (l : GoStr) : trimLeft (trimRight l) = trimRight (trimLeft l) := by
  induction l with
  | nil => rfl
  | cons x xs ih =>
    by_cases hx : goIsSpace x
    · rw [trimLeft_cons_of_space _ hx, ← ih, trimRight]
      rcases hy : trimRight xs with _ | ⟨r, rs⟩
      · simp [hx, trimLeft]
      · rw [trimLeft_cons_of_space _ hx]
    · simp only [Bool.not_eq_true] at hx
      rw [trimLeft_cons_of_nonspace _ hx, trimRight_cons_of_nonspace _ hx,
        trimLeft_cons_of_nonspace _ hx]

theorem trimSpace_eq_self_of_nonspace {l : GoStr}
    (h : ∀ c ∈ l, goIsSpace c = false) : trimSpace l = l := by
  have hr : trimRight l = l := by
    induction l with
    | nil => rfl
    | cons x xs ih =>
      rw [trimRight_cons_of_nonspace _ (h x (by simp)), ih]
      intro c hc
      exact h c (by simp [hc])
  rw [trimSpace, hr]
  induction l with
  | nil => rfl
  | cons x xs _ => exact trimLeft_cons_of_nonspace _ (h x (by simp))

theorem idxOf_append_of_not_mem {c : Char} {x : GoStr} (w : GoStr) (h : c ∉ x) :
    idxOf c (x ++ c :: w) = some x.length := by
  induction x with
  | nil => simp [idxOf]
  | cons a as ih =>
    have ha : a ≠ c := fun he => h (by simp [he])
    rw [List.cons_append, idxOf, if_neg ha, ih (fun hm => h (by simp [hm]))]
    rfl

theorem idxOf_eq_none_of_not_mem {c : Char} {x : GoStr} (h : c ∉ x) :
    idxOf c x = none := by
  induction x with
  | nil => rfl
  | cons a as ih =>
    have ha : a ≠ c := fun he => h (by simp [he])
    simp only [idxOf, if_neg ha, ih (fun hm => h (by simp [hm])), Option.map_none']

theorem startsWith_append_self (p x : GoStr) : startsWith p (p ++ x) = true := by
  induction p with
  | nil => rfl
  | cons a as ih => simp [startsWith, ih]

theorem startsWith_hash_false {x : Char} (xs : GoStr) (h : x ≠ '#') :
    startsWith (gs "#") (x :: xs) = false := by
  simp [gs_hash, startsWith]
  exact fun he => absurd he.symm h

/-! ## Key-character lemmas -/

theorem keyChar_ne {c : Char} (h : isKeyChar c = true) :
    c ≠ '#' ∧ c ≠ '=' ∧ c ≠ '"' ∧ c ≠ sq ∧ c ≠ '\n' ∧ c ≠ ' ' := by
  refine ⟨?_, ?_, ?_, ?_, ?_, ?_⟩ <;>
    (intro he; rw [he] at h; exact absurd h (by decide))

theorem keyChar_not_space {c : Char} (h : isKeyChar c = true) :
    goIsSpace c = false := by
  simp only [isKeyChar, goIsLetter, goIsDigit, Bool.or_eq_true, Bool.and_eq_true,
    decide_eq_true_eq] at h
  have h5F : c = '_' → c.toNat = 0x5F := fun he => by rw [he]; rfl
  simp only [goIsSpace, Bool.or_eq_false_iff, Bool.and_eq_false_iff,
    decide_eq_false_iff_not]
  rcases h with ((h | h) | h) | h
  · omega
  · omega
  · omega
  · have := h5F h
    omega

theorem isValidKey_parts {k : GoStr} (h : isValidKey k = true) :
    k ≠ [] ∧ (∀ c ∈ k, isKeyChar c = true) := by
  rcases k with _ | ⟨c, cs⟩
  · exact absurd h (by decide)
  · simp only [isValidKey, Bool.and_eq_true, List.all_eq_true] at h
    exact ⟨by simp, h.2⟩

theorem validKey_trimSpace {k : GoStr} (h : isValidKey k = true) :
    trimSpace k = k :=
  trimSpace_eq_self_of_nonspace fun c hc =>
    keyChar_not_space ((isValidKey_parts h).2 c hc)

theorem validKey_eq_not_mem {k : GoStr} (h : isValidKey k = true) : '=' ∉ k :=
  fun hm => ((keyChar_ne ((isValidKey_parts h).2 '=' hm)).2.1) rfl

theorem validKey_head_nonspace {k : GoStr} {c : Char} {cs : GoStr}
    (h : isValidKey k = true) (he : k = c :: cs) : goIsSpace c = false :=
  keyChar_not_space ((isValidKey_parts h).2 c (by rw [he]; simp))

/-- A line that renders a key-value pair never carries the `export `
prefix inside its key part: the seventh character of the prefix is a
space, which no valid key position can supply. -/
theorem startsWith_export_false {k : GoStr} (w : GoStr) (h : isValidKey k = true) :
    startsWith (gs "export ") (k ++ '=' :: w) = false := by
  have hmem := (isValidKey_parts h).2
  rcases k with _ | ⟨a, _ | ⟨b, _ | ⟨c2, _ | ⟨d, _ | ⟨e, _ | ⟨f, _ | ⟨g, k7⟩⟩⟩⟩⟩⟩⟩
  · exact absurd h (by decide)
  · rw [Bool.eq_false_iff]
    intro hsw
    simp only [gs_export, List.cons_append, List.nil_append, startsWith,
      Bool.and_eq_true, decide_eq_true_eq] at hsw
    exact absurd hsw.2.1 (by decide)
  · rw [Bool.eq_false_iff]
    intro hsw
    simp only [gs_export, List.cons_append, List.nil_append, startsWith,
      Bool.and_eq_true, decide_eq_true_eq] at hsw
    exact absurd hsw.2.2.1 (by decide)
  · rw [Bool.eq_false_iff]
    intro hsw
    simp only [gs_export, List.cons_append, List.nil_append, startsWith,
      Bool.and_eq_true, decide_eq_true_eq] at hsw
    exact absurd hsw.2.2.2.1 (by decide)
  · rw [Bool.eq_false_iff]
    intro hsw
    simp only [gs_export, List.cons_append, List.nil_append, startsWith,
      Bool.and_eq_true, decide_eq_true_eq] at hsw
    exact absurd hsw.2.2.2.2.1 (by decide)
  · rw [Bool.eq_false_iff]
    intro hsw
    simp only [gs_export, List.cons_append, List.nil_append, startsWith,
      Bool.and_eq_true, decide_eq_true_eq] at hsw
    exact absurd hsw.2.2.2.2.2.1 (by decide)
  · rw [Bool.eq_false_iff]
    intro hsw
    simp only [gs_export, List.cons_append, List.nil_append, startsWith,
      Bool.and_eq_true, decide_eq_true_eq] at hsw
    exact absurd hsw.2.2.2.2.2.2.1 (by decide)
  · rw [Bool.eq_false_iff]
    intro hsw
    simp only [gs_export, List.cons_append, List.nil_append, startsWith,
      Bool.and_eq_true, decide_eq_true_eq] at hsw
    have hg : isKeyChar g = true := hmem g (by simp)
    exact (keyChar_ne hg).2.2.2.2.2 hsw.2.2.2.2.2.2.1.symm

/-! ## Trim length and self-trimmed lemmas -/

theorem trimLeft_length_le (l : GoStr) : (trimLeft l).length ≤ l.length :=
  (List.IsSuffix.sublist (List.dropWhile_suffix goIsSpace)).length_le

theorem trimRight_length_le (l : GoStr) : (trimRight l).length ≤ l.length := by
  induction l with
  | nil => simp [trimRight]
  | cons x xs ih =>
    rw [trimRight]
    rcases hy : trimRight xs with _ | ⟨r, rs⟩
    · by_cases hx : goIsSpace x <;> simp [hx]
    · rw [hy] at ih
      show (x :: r :: rs).length ≤ (x :: xs).length
      simp only [List.length_cons] at ih ⊢
      omega

theorem trimRight_eq_self_of_length {l : GoStr}
    (h : (trimRight l).length = l.length) : trimRight l = l := by
  induction l with
  | nil => rfl
  | cons x xs ih =>
    rw [trimRight] at h ⊢
    rcases hy : trimRight xs with _ | ⟨r, rs⟩
    · rw [hy] at h
      have h' : (if goIsSpace x = true then ([] : GoStr) else [x]).length =
          (x :: xs).length := h
      show (if goIsSpace x = true then ([] : GoStr) else [x]) = x :: xs
      by_cases hx : goIsSpace x
      · rw [if_pos hx] at h'
        simp at h'
      · rw [if_neg hx] at h' ⊢
        have hxs : xs.length = 0 := by simpa using h'.symm
        rw [List.length_eq_zero.mp hxs]
    · rw [hy] at h ih
      have h' : (x :: r :: rs).length = (x :: xs).length := h
      have hrr : r :: rs = xs := ih (by simpa using h')
      show x :: r :: rs = x :: xs
      rw [hrr]

theorem trimSpace_self_parts {l : GoStr} (h : trimSpace l = l) :
    trimLeft l = l ∧ trimRight l = l := by
  have h1 := trimRight_length_le l
  have h2 := trimLeft_length_le (trimRight l)
  rw [show trimLeft (trimRight l) = trimSpace l from rfl, h] at h2
  have hr : trimRight l = l := trimRight_eq_self_of_length (by omega)
  refine ⟨?_, hr⟩
  rw [trimSpace, hr] at h
  exact h

theorem trimLeft_eq_self_of_head {l : GoStr} {c : Char} (h : l.head? = some c)
    (hc : goIsSpace c = false) : trimLeft l = l := by
  rcases l with _ | ⟨x, xs⟩
  · simp at h
  · have hx : x = c := by simpa using h
    exact trimLeft_cons_of_nonspace _ (hx ▸ hc)

/-! ## Value-reader lemmas -/

/-- An unquoted, already-trimmed, hash-free value is returned verbatim
and consumes no extra line. -/
theorem parseValue_unquoted {v : GoStr} (rest : List GoStr)
    (hv : trimSpace v = v)
    (hq : ∀ c, v.head? = some c → ¬(c = '"' ∨ c = sq))
    (hh : '#' ∉ v) :
    parseValue v rest = (v, 0) := by
  rcases v with _ | ⟨c, cs⟩
  · simp [parseValue, trimSpace, trimRight, trimLeft]
  · have hcq := hq c rfl
    simp only [parseValue, hv]
    rw [if_neg (by simp), if_neg (by simpa using hcq), idxOf_eq_none_of_not_mem hh]

/-- A key-value line with an already-trimmed, unquoted, hash-free value
parses to exactly one key-value entry and leaves the following lines to
the rest of the loop. -/
theorem parseLines_kvline (k v : GoStr) (ex : Bool) (rest : List GoStr) (i : Nat)
    (hk : isValidKey k = true)
    (hv : trimSpace v = v)
    (hq : ∀ c, v.head? = some c → ¬(c = '"' ∨ c = sq))
    (hh : '#' ∉ v) :
    parseLines (((if ex then gs "export " else []) ++ k ++ '=' :: v) :: rest) i =
      ⟨.keyValueEntry, k, v, [], i + 1, ex, isSecretKey k⟩ :: parseLines rest (i + 1) := by
  obtain ⟨hkne, hkmem⟩ := isValidKey_parts hk
  rcases hck : k with _ | ⟨kh, kt⟩
  · exact absurd hck hkne
  rw [← hck]
  have hkh : isKeyChar kh = true := hkmem kh (by rw [hck]; simp)
  -- the full line is unchanged by TrimSpace
  have hvr : trimRight v = v := (trimSpace_self_parts hv).2
  have htrR : ∀ X : GoStr, trimRight (X ++ '=' :: v) = X ++ '=' :: v := by
    intro X
    have : trimRight ('=' :: v) = '=' :: v := by
      rw [trimRight_cons_of_nonspace _ (by decide), hvr]
    rw [trimRight_append X (by rw [this]; simp), this]
  have htrk : trimSpace (k ++ '=' :: v) = k ++ '=' :: v := by
    rw [trimSpace, htrR k]
    exact trimLeft_eq_self_of_head (c := kh) (by rw [hck]; rfl) (keyChar_not_space hkh)
  have htre : trimSpace ((gs "export " ++ k) ++ '=' :: v) =
      (gs "export " ++ k) ++ '=' :: v := by
    rw [trimSpace, htrR (gs "export " ++ k)]
    exact trimLeft_eq_self_of_head (c := 'e') rfl (by decide)
  have htr : trimSpace ((if ex then gs "export " else []) ++ k ++ '=' :: v) =
      (if ex then gs "export " else []) ++ k ++ '=' :: v := by
    cases ex
    · show trimSpace (([] ++ k) ++ '=' :: v) = ([] ++ k) ++ '=' :: v
      rw [List.nil_append]
      exact htrk
    · show trimSpace ((gs "export " ++ k) ++ '=' :: v) = (gs "export " ++ k) ++ '=' :: v
      exact htre
  -- dispatch on the export prefix
  have hexval : startsWith (gs "export ")
      ((if ex then gs "export " else []) ++ k ++ '=' :: v) = ex := by
    cases ex
    · show startsWith (gs "export ") (([] ++ k) ++ '=' :: v) = false
      rw [List.nil_append]
      exact startsWith_export_false v hk
    · show startsWith (gs "export ") ((gs "export " ++ k) ++ '=' :: v) = true
      rw [List.append_assoc]
      exact startsWith_append_self _ _
  have ht2 : (if ex then trimSpace
        ((trimSpace ((if ex then gs "export " else []) ++ k ++ '=' :: v)).drop 7)
      else trimSpace ((if ex then gs "export " else []) ++ k ++ '=' :: v)) =
      k ++ '=' :: v := by
    cases ex
    · show trimSpace (([] ++ k) ++ '=' :: v) = k ++ '=' :: v
      rw [List.nil_append]
      exact htrk
    · show trimSpace ((trimSpace ((gs "export " ++ k) ++ '=' :: v)).drop 7) =
        k ++ '=' :: v
      rw [htre]
      show trimSpace (k ++ '=' :: v) = k ++ '=' :: v
      exact htrk
  have hkeyeq : trimSpace ((k ++ '=' :: v).take k.length) = k := by
    rw [show (k ++ '=' :: v).take k.length = k from List.take_left k ('=' :: v),
      validKey_trimSpace hk]
  have hne2 : trimSpace ((if ex then gs "export " else []) ++ k ++ '=' :: v) ≠ [] := by
    rw [htr]
    cases ex
    · show ([] ++ k) ++ '=' :: v ≠ []
      simp
    · show (gs "export " ++ k) ++ '=' :: v ≠ []
      simp
  have hc2 : startsWith (gs "#")
      (trimSpace ((if ex then gs "export " else []) ++ k ++ '=' :: v)) = false := by
    rw [htr]
    cases ex
    · show startsWith (gs "#") (([] ++ k) ++ '=' :: v) = false
      rw [List.nil_append, hck]
      exact startsWith_hash_false _ (keyChar_ne hkh).1
    · show startsWith (gs "#") ((gs "export " ++ k) ++ '=' :: v) = false
      exact startsWith_hash_false _ (by decide)
  have hexval2 : startsWith (gs "export ")
      (trimSpace ((if ex then gs "export " else []) ++ k ++ '=' :: v)) = ex := by
    rw [htr]
    exact hexval
  have heq2 : idxOf '=' (k ++ '=' :: v) = some k.length :=
    idxOf_append_of_not_mem v (validKey_eq_not_mem hk)
  have hdrop : (k ++ '=' :: v).drop (k.length + 1) = v := by
    rw [show k ++ '=' :: v = (k ++ ['=']) ++ v by simp,
      show k.length + 1 = (k ++ ['=']).length by simp]
    exact List.drop_left _ _
  have hv2 : parseValue ((k ++ '=' :: v).drop (k.length + 1)) rest = (v, 0) := by
    rw [hdrop]
    exact parseValue_unquoted rest hv hq hh
  have hfin := parseLines_kv rest i k.length ex hne2 hc2 hexval2 ht2 heq2
    (by rw [hkeyeq]; exact hkne) (by rw [hkeyeq]; exact hk) hv2
  rw [hfin, hkeyeq]

/-! ## Round-trip machinery -/

/-- Every entry the parse loop produces satisfies the shape invariant,
provided the input lines carry no embedded newline. -/
theorem parse_wf : ∀ (f : Nat) (lines : List GoStr) (i : Nat),
    (∀ l ∈ lines, '\n' ∉ l) → ∀ e ∈ parseLinesF f lines i, EntryWF e := by
  intro f
  induction f with
  | zero =>
    intro lines i _ e he
    cases lines <;> simp [parseLinesF] at he
  | succ f ih =>
    intro lines i h e he
    cases lines with
    | nil => simp [parseLinesF] at he
    | cons line rest =>
      have hrest : ∀ l ∈ rest, '\n' ∉ l := fun l hl => h l (by simp [hl])
      simp only [parseLinesF] at he
      split at he
      · rcases (List.mem_cons).mp he with rfl | he'
        · trivial
        · exact ih rest (i + 1) hrest e he'
      · split at he
        · next hne hcm =>
          rcases (List.mem_cons).mp he with rfl | he'
          · exact ⟨hcm, h line (by simp)⟩
          · exact ih rest (i + 1) hrest e he'
        · split at he
          all_goals try exact ih rest (i + 1) hrest e he
          all_goals split at he
          all_goals split at he
          all_goals try exact ih rest (i + 1) hrest e he
          all_goals
            next hkey =>
              rcases (List.mem_cons).mp he with rfl | he'
              · refine ⟨?_, rfl⟩
                rcases not_or.mp hkey with ⟨_, hv⟩
                simpa using hv
              · refine ih (rest.drop _) _ (fun l hl => hrest l ?_) e he'
                exact List.drop_subset _ rest hl

/-- Lines produced by splitting on newlines contain no newline. -/
theorem splitNl_no_newline : ∀ (l : GoStr), ∀ p ∈ splitNl l, '\n' ∉ p := by
  intro l
  induction l with
  | nil =>
    intro p hp
    simp only [splitNl, List.mem_singleton] at hp
    simp [hp]
  | cons c cs ih =>
    intro p hp
    rw [splitNl] at hp
    by_cases hc : c = '\n'
    · rw [if_pos hc] at hp
      rcases (List.mem_cons).mp hp with rfl | hp'
      · simp
      · exact ih p hp'
    · rw [if_neg hc] at hp
      rcases hs : splitNl cs with _ | ⟨r, rs⟩
      · rw [hs] at hp
        simp only [List.mem_singleton] at hp
        subst hp
        intro hm
        simp only [List.mem_singleton] at hm
        exact hc hm.symm
      · rw [hs] at hp
        rcases (List.mem_cons).mp hp with rfl | hp'
        · intro hm
          rcases (List.mem_cons).mp hm with he | hm'
          · exact hc he.symm
          · exact ih r (by rw [hs]; simp) hm'
        · exact ih p (by rw [hs]; simp [hp'])

/-- Splitting after a newline-free first line peels it off. -/
theorem splitNl_append_newline {l : GoStr} (rest : GoStr) (h : '\n' ∉ l) :
    splitNl (l ++ '\n' :: rest) = l :: splitNl rest := by
  induction l with
  | nil => simp [splitNl]
  | cons c cs ih =>
    have hc : c ≠ '\n' := fun he => h (by simp [he])
    rw [List.cons_append, splitNl, if_neg hc,
      ih (fun hm => h (by simp [hm]))]

/-- Splitting a serialized document yields each entry's text plus the
final empty line. -/
theorem splitNl_serialize : ∀ (es : List Entry),
    (∀ e ∈ es, '\n' ∉ entryString e) →
    splitNl (serializeEntries es) = es.map entryString ++ [[]] := by
  intro es
  induction es with
  | nil =>
    intro _
    simp [serializeEntries, splitNl]
  | cons e es ih =>
    intro h
    rw [serializeEntries, splitNl_append_newline _ (h e (by simp)),
      ih (fun x hx => h x (by simp [hx]))]
    simp

/-- A wellformed entry with a serializable value renders to a single
newline-free line. -/
theorem entryString_no_newline {e : Entry} (hwf : EntryWF e)
    (hok : e.EType = .keyValueEntry → ValueOK e.Value) :
    '\n' ∉ entryString e := by
  rcases het : e.EType with _ | _ | _
  · have hv := hok het
    have hk := (show isValidKey e.Key = true ∧ e.Comment = [] by
      have := hwf
      rw [EntryWF, het] at this
      exact this)
    rw [entryString, het, hk.2, if_neg (not_not_intro rfl)]
    intro hm
    simp only [List.append_nil, List.mem_append] at hm
    rcases hm with ((hm | hm) | hm) | hm
    · rcases he2 : e.Exported with _ | _
      · rw [he2] at hm
        simp at hm
      · rw [he2] at hm
        exact absurd hm (by decide)
    · exact (keyChar_ne ((isValidKey_parts hk.1).2 _ hm)).2.2.2.2.1 rfl
    · simp only [gs, List.mem_singleton] at hm
      exact absurd hm (by decide)
    · exact hv.2.1 hm
  · have hc := (show startsWith (gs "#") (trimSpace e.Comment) = true ∧ '\n' ∉ e.Comment by
      have := hwf
      rw [EntryWF, het] at this
      exact this)
    rw [entryString, het]
    exact hc.2
  · rw [entryString, het]
    simp

theorem kvTuples_cons_kv {e : Entry} (l : List Entry) (h : e.EType = .keyValueEntry) :
    kvTuples (e :: l) = (e.Key, e.Value, e.Exported) :: kvTuples l := by
  simp [kvTuples, List.filter_cons, h]

theorem kvTuples_cons_nonkv {e : Entry} (l : List Entry) (h : ¬ e.EType = .keyValueEntry) :
    kvTuples (e :: l) = kvTuples l := by
  simp [kvTuples, List.filter_cons, h]

/-- Re-parsing the rendered lines of wellformed entries with serializable
values reproduces the key-value tuples. -/
theorem reparse_entries : ∀ (es : List Entry) (i : Nat),
    (∀ e ∈ es, EntryWF e) →
    (∀ e ∈ es, e.EType = .keyValueEntry → ValueOK e.Value) →
    kvTuples (parseLines (es.map entryString ++ [[]]) i) = kvTuples es := by
  intro es
  induction es with
  | nil =>
    intro i _ _
    rw [List.map_nil, List.nil_append, parseLines_blank [] _ _ rfl]
    rfl
  | cons e es ih =>
    intro i hwf hok
    have hwfe := hwf e (by simp)
    have hwfr : ∀ x ∈ es, EntryWF x := fun x hx => hwf x (by simp [hx])
    have hokr : ∀ x ∈ es, x.EType = .keyValueEntry → ValueOK x.Value :=
      fun x hx => hok x (by simp [hx])
    rcases het : e.EType with _ | _ | _
    · have hv := hok e (by simp) het
      have hkc : isValidKey e.Key = true ∧ e.Comment = [] := by
        rw [EntryWF, het] at hwfe
        exact hwfe
      have hren : entryString e =
          (if e.Exported then gs "export " else []) ++ e.Key ++ '=' :: e.Value := by
        rw [entryString, het, hkc.2, if_neg (not_not_intro rfl), List.append_nil,
          List.append_assoc]
        rfl
      rw [List.map_cons, List.cons_append, hren,
        parseLines_kvline e.Key e.Value e.Exported _ i hkc.1 hv.1
          (fun c hc => by
            rintro (rfl | rfl)
            · exact hv.2.2.2.1 hc
            · exact hv.2.2.2.2 hc)
          hv.2.2.1,
        kvTuples_cons_kv _ rfl, kvTuples_cons_kv _ het, ih (i + 1) hwfr hokr]
    · have hcm : startsWith (gs "#") (trimSpace e.Comment) = true ∧ '\n' ∉ e.Comment := by
        rw [EntryWF, het] at hwfe
        exact hwfe
      have hne : trimSpace e.Comment ≠ [] := by
        intro h0
        rw [h0] at hcm
        exact absurd hcm.1 (by decide)
      rw [List.map_cons, List.cons_append,
        show entryString e = e.Comment from by rw [entryString, het],
        parseLines_comment _ i hne hcm.1,
        kvTuples_cons_nonkv _ (by simp), kvTuples_cons_nonkv _ (by rw [het]; simp),
        ih (i + 1) hwfr hokr]
    · rw [List.map_cons, List.cons_append,
        show entryString e = [] from by rw [entryString, het],
        parseLines_blank [] _ i rfl,
        kvTuples_cons_nonkv _ (by simp), kvTuples_cons_nonkv _ (by rw [het]; simp),
        ih (i + 1) hwfr hokr]

/-! ## Claim C1 -/

/-- C1 (amended): for every document produced by `parse` whose key-value
values contain no newline and no hash character, are unchanged by
TrimSpace, and do not begin with a quote character, parsing the
serialization (each entry rendered by its variant text rule, one line per
entry, a newline after every line) yields an `EnvFile` whose key-value
entries have identical `(key, value, exported)` tuples in the same order.
As literally stated the claim fails, because the serializer renders every
value unquoted: see the counterexample, where a quoted value containing
a hash is cut at the hash on re-parse. -/
theorem C1_parse_serialize_roundtrip (input : GoStr)
    (hok : ∀ e ∈ (parseDoc input).Entries,
      e.EType = .keyValueEntry → ValueOK e.Value) :
    kvTuples (parseDoc (serializeEntries (parseDoc input).Entries)).Entries =
      kvTuples (parseDoc input).Entries := by
  have hwf : ∀ e ∈ (parseDoc input).Entries, EntryWF e :=
    parse_wf (splitNl input).length (splitNl input) 0 (splitNl_no_newline input)
  have hnl : ∀ e ∈ (parseDoc input).Entries, '\n' ∉ entryString e :=
    fun e he => entryString_no_newline (hwf e he) (hok e he)
  show kvTuples (parseLines (splitNl (serializeEntries (parseDoc input).Entries)) 0) = _
  rw [splitNl_serialize _ hnl]
  exact reparse_entries _ 0 hwf hok

/-- C1 counterexample: the document parsed from `K="a #b"` has the single
tuple `(K, "a #b", false)`, but its serialization `K=a #b` re-parses with
the value cut at the hash, so the round trip changes the tuples. -/
theorem C1_counterexample :
    kvTuples (parseDoc (serializeEntries
        (parseDoc (gs "K=\"a #b\"")).Entries)).Entries ≠
      kvTuples (parseDoc (gs "K=\"a #b\"")).Entries := by decide

/-- C1 witness: a concrete document with comment, blank, exported and
plain entries satisfying the value conditions round-trips. -/
theorem C1_witness :
    (∀ e ∈ (parseDoc (gs "# note\n\nexport A=1\nB=hello")).Entries,
        e.EType = .keyValueEntry → ValueOK e.Value) ∧
    kvTuples (parseDoc (serializeEntries
        (parseDoc (gs "# note\n\nexport A=1\nB=hello")).Entries)).Entries =
      kvTuples (parseDoc (gs "# note\n\nexport A=1\nB=hello")).Entries :=
  ⟨by decide, C1_parse_serialize_roundtrip _ (by decide)⟩

/-! ## Claim C2 -/

theorem self_ne_append {p s : GoStr} (h : s ≠ []) : p ≠ p ++ s := by
  intro he
  have hl := congrArg List.length he
  simp only [List.length_append] at hl
  exact h (List.length_eq_zero.mp (by omega))

/-- C2: for every write attempt in which the steps before the rename
succeed and the rename fails, `WriteFile` surfaces an error, the target
path holds exactly its previous content, and no `.tmp` sibling remains
(the failure path removes it). -/
theorem C2_writeFile_rename_failure (fs : FS) (ef : EnvFile) (ts : GoStr) :
    (WriteFile fs ef ts ⟨true, true, true, true, false⟩).2.isSome = true ∧
    (WriteFile fs ef ts ⟨true, true, true, true, false⟩).1 ef.Path = fs ef.Path ∧
    (WriteFile fs ef ts ⟨true, true, true, true, false⟩).1 (ef.Path ++ gs ".tmp") =
      none := by
  have htmp : ef.Path ≠ ef.Path ++ gs ".tmp" := self_ne_append (by decide)
  have hbak : ef.Path ≠ ef.Path ++ gs ".backup." ++ ts := by
    rw [List.append_assoc]
    exact self_ne_append (by simp [gs])
  refine ⟨rfl, ?_, ?_⟩
  · show (fsRemove (fsWrite (fsWrite (CreateBackup fs ef.Path ts)
        (ef.Path ++ gs ".tmp") []) (ef.Path ++ gs ".tmp")
        (serializeEntries ef.Entries)) (ef.Path ++ gs ".tmp")) ef.Path = fs ef.Path
    simp only [fsRemove, fsWrite, if_neg htmp]
    rw [CreateBackup]
    cases hfp : fs ef.Path
    · exact hfp
    · simp only [fsWrite, if_neg hbak]
      exact hfp
  · show (fsRemove (fsWrite (fsWrite (CreateBackup fs ef.Path ts)
        (ef.Path ++ gs ".tmp") []) (ef.Path ++ gs ".tmp")
        (serializeEntries ef.Entries)) (ef.Path ++ gs ".tmp"))
        (ef.Path ++ gs ".tmp") = none
    simp [fsRemove]

/-! ## Claim C5 -/

/-- C5: `Undo` is a no-op returning nothing at cursor -1 and otherwise
returns the change at the cursor while decrementing it; `Redo` is a no-op
at the last index and otherwise advances the cursor and returns the
change then pointed to; an undo that succeeds followed by a redo returns
the same change and restores the stack; neither operation changes the
stored sequence. -/
theorem C5_undo_redo (cs : ChangeStack)
    (hlo : -1 ≤ cs.current) (hhi : cs.current < (cs.changes.length : Int)) :
    (cs.current = -1 → Undo cs = (none, cs)) ∧
    (cs.current ≠ -1 →
      Undo cs = (cs.changes.get? cs.current.toNat,
        { cs with current := cs.current - 1 }) ∧
      (cs.changes.get? cs.current.toNat).isSome = true) ∧
    (cs.current = (cs.changes.length : Int) - 1 → Redo cs = (none, cs)) ∧
    (cs.current ≠ (cs.changes.length : Int) - 1 →
      Redo cs = (cs.changes.get? (cs.current + 1).toNat,
        { cs with current := cs.current + 1 }) ∧
      (cs.changes.get? (cs.current + 1).toNat).isSome = true) ∧
    ((Undo cs).1.isSome = true → Redo (Undo cs).2 = ((Undo cs).1, cs)) ∧
    (Undo cs).2.changes = cs.changes ∧ (Redo cs).2.changes = cs.changes := by
  refine ⟨?_, ?_, ?_, ?_, ?_, ?_, ?_⟩
  · intro h
    rw [Undo, if_pos (show cs.current < 0 by omega)]
  · intro h
    rw [Undo, if_neg (show ¬ cs.current < 0 by omega)]
    refine ⟨rfl, ?_⟩
    rw [List.get?_eq_get (show cs.current.toNat < cs.changes.length by omega)]
    rfl
  · intro h
    rw [Redo, if_pos (show cs.current ≥ (cs.changes.length : Int) - 1 by omega)]
  · intro h
    rw [Redo, if_neg (show ¬ cs.current ≥ (cs.changes.length : Int) - 1 by omega)]
    refine ⟨rfl, ?_⟩
    rw [List.get?_eq_get (show (cs.current + 1).toNat < cs.changes.length by omega)]
    rfl
  · intro hs
    by_cases hc0 : cs.current < 0
    · rw [Undo, if_pos hc0] at hs
      simp at hs
    · rw [Undo, if_neg hc0] at hs ⊢
      show (if cs.current - 1 ≥ (cs.changes.length : Int) - 1 then
          (none, { cs with current := cs.current - 1 })
        else (cs.changes.get? (cs.current - 1 + 1).toNat,
          { cs with current := cs.current - 1 + 1 })) =
        (cs.changes.get? cs.current.toNat, cs)
      rw [if_neg (show ¬ cs.current - 1 ≥ (cs.changes.length : Int) - 1 by omega),
        show cs.current - 1 + 1 = cs.current from by omega]
  · rw [Undo]
    by_cases hc0 : cs.current < 0
    · rw [if_pos hc0]
    · rw [if_neg hc0]
  · rw [Redo]
    by_cases hcl : cs.current ≥ (cs.changes.length : Int) - 1
    · rw [if_pos hcl]
    · rw [if_neg hcl]

/-! ## Claim C4 -/

/-- C4: `Push` discards the redo tail (everything after the cursor),
appends the new change and advances the cursor; when the stack would then
exceed its capacity the oldest change is dropped and the cursor
decremented; in particular, after `push A; push B; undo; push C`,
`CanRedo` is false and `B` is nowhere in the history. -/
theorem C4_push (cs : ChangeStack) (c A B Cc : Change) :
    ((-1 ≤ cs.current ∧ cs.current < (cs.changes.length : Int)) →
      (((cs.current + 1).toNat + 1 : Int) ≤ cs.maxSize →
        (Push cs c).changes = cs.changes.take (cs.current + 1).toNat ++ [c] ∧
        (Push cs c).current = cs.current + 1) ∧
      (((cs.current + 1).toNat + 1 : Int) > cs.maxSize →
        (Push cs c).changes = (cs.changes.take (cs.current + 1).toNat ++ [c]).tail ∧
        (Push cs c).current = cs.current)) ∧
    (B ≠ A → B ≠ Cc →
      CanRedo (Push (Undo (Push (Push (NewChangeStack 100) A) B)).2 Cc) = false ∧
      B ∉ (Push (Undo (Push (Push (NewChangeStack 100) A) B)).2 Cc).changes) := by
  constructor
  · rintro ⟨h1, h2⟩
    have htake : (if cs.current < (cs.changes.length : Int) - 1 then
        { cs with changes := cs.changes.take (cs.current + 1).toNat }
        else cs) = { cs with changes := cs.changes.take (cs.current + 1).toNat } := by
      by_cases hc : cs.current < (cs.changes.length : Int) - 1
      · rw [if_pos hc]
      · rw [if_neg hc]
        show cs = _
        rw [show (cs.current + 1).toNat = cs.changes.length by omega, List.take_length]
    have hlen : ((cs.changes.take (cs.current + 1).toNat ++ [c]).length : Int) =
        ((cs.current + 1).toNat + 1 : Int) := by
      simp only [List.length_append, List.length_take, List.length_singleton]
      have ht : (cs.current + 1).toNat ≤ cs.changes.length := by omega
      omega
    simp only [Push, htake]
    constructor
    · intro hcap
      rw [if_neg (by rw [hlen]; omega)]
      exact ⟨rfl, rfl⟩
    · intro hcap
      rw [if_pos (by rw [hlen]; omega)]
      exact ⟨rfl, by show cs.current + 1 - 1 = cs.current; omega⟩
  · intro hba hbc
    have s1 : Push (NewChangeStack 100) A = ⟨[A], 0, 100⟩ := rfl
    have s2 : Push (⟨[A], 0, 100⟩ : ChangeStack) B = ⟨[A, B], 1, 100⟩ := rfl
    have s3 : (Undo (⟨[A, B], 1, 100⟩ : ChangeStack)).2 = ⟨[A, B], 0, 100⟩ := rfl
    have s4 : Push (⟨[A, B], 0, 100⟩ : ChangeStack) Cc = ⟨[A, Cc], 1, 100⟩ := rfl
    rw [s1, s2, s3, s4]
    refine ⟨rfl, ?_⟩
    show B ∉ [A, Cc]
    simp [hba, hbc]

/-! ## Witnesses for C4 and C5 -/

/-- C5 witness: a concrete two-change stack at cursor 1 satisfies the
bounds, and undo followed by redo restores it. -/
theorem C5_witness :
    (-1 : Int) ≤ (ChangeStack.mk [⟨.add, gs "a", none, []⟩,
        ⟨.update, gs "b", none, gs "x"⟩] 1 100).current ∧
    (ChangeStack.mk [⟨.add, gs "a", none, []⟩,
        ⟨.update, gs "b", none, gs "x"⟩] 1 100).current <
      ((ChangeStack.mk [⟨.add, gs "a", none, []⟩,
        ⟨.update, gs "b", none, gs "x"⟩] 1 100).changes.length : Int) ∧
    Redo (Undo (ChangeStack.mk [⟨.add, gs "a", none, []⟩,
        ⟨.update, gs "b", none, gs "x"⟩] 1 100)).2 =
      ((Undo (ChangeStack.mk [⟨.add, gs "a", none, []⟩,
        ⟨.update, gs "b", none, gs "x"⟩] 1 100)).1,
       ChangeStack.mk [⟨.add, gs "a", none, []⟩,
        ⟨.update, gs "b", none, gs "x"⟩] 1 100) :=
  ⟨by decide, by decide,
    (C5_undo_redo _ (by decide) (by decide)).2.2.2.2.1 (by decide)⟩

/-- C4 witness: on a concrete one-change stack below capacity, push
appends and advances the cursor, and the truncation scenario with three
distinct changes leaves no redo and no trace of the overwritten change. -/
theorem C4_witness :
    ((-1 : Int) ≤ (ChangeStack.mk [⟨.add, gs "a", none, []⟩] 0 100).current ∧
      (ChangeStack.mk [⟨.add, gs "a", none, []⟩] 0 100).current <
        ((ChangeStack.mk [⟨.add, gs "a", none, []⟩] 0 100).changes.length : Int)) ∧
    (Push (ChangeStack.mk [⟨.add, gs "a", none, []⟩] 0 100)
        ⟨.add, gs "b", none, []⟩).changes =
      (ChangeStack.mk [⟨.add, gs "a", none, []⟩] 0 100).changes.take
        (((ChangeStack.mk [⟨.add, gs "a", none, []⟩] 0 100).current + 1).toNat) ++
        [⟨.add, gs "b", none, []⟩] ∧
    CanRedo (Push (Undo (Push (Push (NewChangeStack 100) ⟨.add, gs "a", none, []⟩)
        ⟨.add, gs "b", none, []⟩)).2 ⟨.add, gs "c", none, []⟩) = false ∧
    (⟨.add, gs "b", none, []⟩ : Change) ∉
      (Push (Undo (Push (Push (NewChangeStack 100) ⟨.add, gs "a", none, []⟩)
        ⟨.add, gs "b", none, []⟩)).2 ⟨.add, gs "c", none, []⟩).changes :=
  ⟨⟨by decide, by decide⟩,
    (((C4_push (ChangeStack.mk [⟨.add, gs "a", none, []⟩] 0 100)
        ⟨.add, gs "b", none, []⟩ ⟨.add, gs "a", none, []⟩ ⟨.add, gs "b", none, []⟩
        ⟨.add, gs "c", none, []⟩).1 ⟨by decide, by decide⟩).1 (by decide)).1,
    ((C4_push (ChangeStack.mk [⟨.add, gs "a", none, []⟩] 0 100)
        ⟨.add, gs "b", none, []⟩ ⟨.add, gs "a", none, []⟩ ⟨.add, gs "b", none, []⟩
        ⟨.add, gs "c", none, []⟩).2 (by decide) (by decide)).1,
    ((C4_push (ChangeStack.mk [⟨.add, gs "a", none, []⟩] 0 100)
        ⟨.add, gs "b", none, []⟩ ⟨.add, gs "a", none, []⟩ ⟨.add, gs "b", none, []⟩
        ⟨.add, gs "c", none, []⟩).2 (by decide) (by decide)).2⟩

/-! ## Claim C9 -/

/-- The update loop reports whether any entry matches, and rewrites
exactly the value field of the first match. -/
theorem updateLoop_spec (key value : GoStr) : ∀ l : List Entry,
    (updateLoop key value l).2 = l.any (entryMatches key) ∧
    (updateLoop key value l).1 =
      (if h : l.findIdx (entryMatches key) < l.length then
        l.set (l.findIdx (entryMatches key))
          { l.get ⟨l.findIdx (entryMatches key), h⟩ with Value := value }
      else l) := by
  intro l
  induction l with
  | nil => exact ⟨rfl, by rw [dif_neg (by simp)]; rfl⟩
  | cons e es ih =>
    by_cases he : entryMatches key e
    · constructor
      · rw [updateLoop, if_pos he]
        simp [List.any_cons, he]
      · rw [updateLoop, if_pos he, List.findIdx_cons, he]
        simp
    · constructor
      · rw [updateLoop, if_neg he]
        simp only [List.any_cons, ih.1]
        rw [show entryMatches key e = false by simpa using he]
        rfl
      · rw [updateLoop, if_neg he, List.findIdx_cons,
          show entryMatches key e = false by simpa using he]
        simp only [cond_false, ih.2]
        by_cases h2 : es.findIdx (entryMatches key) < es.length
        · rw [dif_pos h2, dif_pos (by simpa using Nat.succ_lt_succ h2)]
          rfl
        · rw [dif_neg h2, dif_neg (by simpa using fun h => h2 (Nat.lt_of_succ_lt_succ h))]

/-- C9: `UpdateEntry` returns true exactly when some key-value entry has
the given key; on success it replaces only the value field of the first
matching entry (found at the first matching index), leaving every other
field and entry untouched; on failure the document is unchanged. -/
theorem C9_updateEntry (ef : EnvFile) (key value : GoStr) :
    ((UpdateEntry ef key value).2 = true ↔
      ∃ e ∈ ef.Entries, e.EType = .keyValueEntry ∧ e.Key = key) ∧
    (∀ h : ef.Entries.findIdx (entryMatches key) < ef.Entries.length,
      (UpdateEntry ef key value).1 = { ef with Entries :=
        (ef.Entries.set (ef.Entries.findIdx (entryMatches key))
          { ef.Entries.get ⟨ef.Entries.findIdx (entryMatches key), h⟩ with
            Value := value }) }) ∧
    ((UpdateEntry ef key value).2 = false → (UpdateEntry ef key value).1 = ef) := by
  obtain ⟨spec2, spec1⟩ := updateLoop_spec key value ef.Entries
  refine ⟨?_, ?_, ?_⟩
  · rw [show (UpdateEntry ef key value).2 =
      (updateLoop key value ef.Entries).2 from rfl, spec2]
    simp [entryMatches]
  · intro h
    show ({ ef with Entries := (updateLoop key value ef.Entries).1 } : EnvFile) = _
    rw [spec1, dif_pos h]
  · intro h2
    rw [show (UpdateEntry ef key value).2 =
      (updateLoop key value ef.Entries).2 from rfl, spec2] at h2
    show ({ ef with Entries := (updateLoop key value ef.Entries).1 } : EnvFile) = ef
    rw [spec1, dif_neg]
    intro hlt
    have hmem := List.findIdx_getElem (w := hlt)
    have hany : ef.Entries.any (entryMatches key) = true :=
      List.any_eq_true.mpr ⟨_, List.getElem_mem hlt, hmem⟩
    rw [h2] at hany
    exact Bool.noConfusion hany

/-- C9 witness: updating the key `B` in a concrete two-entry document
returns true, rewrites only that entry's value, and a missing key leaves
the document unchanged. -/
theorem C9_witness :
    ((UpdateEntry ⟨gs "p", [⟨.keyValueEntry, gs "A", gs "1", [], 1, false, false⟩,
        ⟨.keyValueEntry, gs "B", gs "2", [], 2, false, false⟩], [], false⟩
        (gs "B") (gs "9")).2 = true ↔
      ∃ e ∈ [⟨.keyValueEntry, gs "A", gs "1", [], 1, false, false⟩,
        ⟨.keyValueEntry, gs "B", gs "2", [], 2, false, false⟩],
        Entry.EType e = .keyValueEntry ∧ Entry.Key e = gs "B") ∧
    (UpdateEntry ⟨gs "p", [⟨.keyValueEntry, gs "A", gs "1", [], 1, false, false⟩,
        ⟨.keyValueEntry, gs "B", gs "2", [], 2, false, false⟩], [], false⟩
        (gs "B") (gs "9")).1.Entries =
      [⟨.keyValueEntry, gs "A", gs "1", [], 1, false, false⟩,
       ⟨.keyValueEntry, gs "B", gs "9", [], 2, false, false⟩] := by
  constructor
  · exact (C9_updateEntry ⟨gs "p", [⟨.keyValueEntry, gs "A", gs "1", [], 1, false, false⟩,
      ⟨.keyValueEntry, gs "B", gs "2", [], 2, false, false⟩], [], false⟩
      (gs "B") (gs "9")).1
  · rw [(C9_updateEntry ⟨gs "p", [⟨.keyValueEntry, gs "A", gs "1", [], 1, false, false⟩,
      ⟨.keyValueEntry, gs "B", gs "2", [], 2, false, false⟩], [], false⟩
      (gs "B") (gs "9")).2.1 (by decide)]
    decide

/-! ## Claim C10 -/

theorem updateLoop_filter_nonkv (key value : GoStr) : ∀ l : List Entry,
    (updateLoop key value l).1.filter
      (fun e => !decide (e.EType = .keyValueEntry)) =
    l.filter (fun e => !decide (e.EType = .keyValueEntry)) := by
  intro l
  induction l with
  | nil => rfl
  | cons e es ih =>
    by_cases he : entryMatches key e
    · rw [updateLoop, if_pos he]
      have hkv : e.EType = .keyValueEntry := by
        simp [entryMatches] at he
        exact he.1
      show ({ e with Value := value } :: es).filter _ = _
      rw [List.filter_cons, List.filter_cons]
      simp [hkv]
    · rw [updateLoop, if_neg he]
      show (e :: (updateLoop key value es).1).filter _ = _
      rw [List.filter_cons, List.filter_cons, ih]

theorem deleteLoop_filter_nonkv (key : GoStr) : ∀ l : List Entry,
    (deleteLoop key l).1.filter (fun e => !decide (e.EType = .keyValueEntry)) =
    l.filter (fun e => !decide (e.EType = .keyValueEntry)) := by
  intro l
  induction l with
  | nil => rfl
  | cons e es ih =>
    by_cases he : entryMatches key e
    · rw [deleteLoop, if_pos he]
      have hkv : e.EType = .keyValueEntry := by
        simp [entryMatches] at he
        exact he.1
      rw [List.filter_cons]
      simp [hkv]
    · rw [deleteLoop, if_neg he]
      show (e :: (deleteLoop key es).1).filter _ = _
      rw [List.filter_cons, List.filter_cons, ih]

/-- C10: the key-based operations never touch comment or blank entries:
`GetEntry` only ever returns a key-value entry, and `UpdateEntry` and
`DeleteEntry` preserve the subsequence of non-key-value entries exactly,
whatever the key argument is. -/
theorem C10_comment_blank_frame (ef : EnvFile) (key value : GoStr) :
    ((GetEntry ef key).all fun e => decide (e.EType = .keyValueEntry)) = true ∧
    (UpdateEntry ef key value).1.Entries.filter
      (fun e => !decide (e.EType = .keyValueEntry)) =
      ef.Entries.filter (fun e => !decide (e.EType = .keyValueEntry)) ∧
    (DeleteEntry ef key).1.Entries.filter
      (fun e => !decide (e.EType = .keyValueEntry)) =
      ef.Entries.filter (fun e => !decide (e.EType = .keyValueEntry)) := by
  refine ⟨?_, ?_, ?_⟩
  · rw [GetEntry]
    cases hf : ef.Entries.find? (entryMatches key)
    · rfl
    · have hp := List.find?_some hf
      simp only [entryMatches, Bool.and_eq_true, decide_eq_true_eq] at hp
      simp [Option.all, hp.1]
  · exact updateLoop_filter_nonkv key value ef.Entries
  · exact deleteLoop_filter_nonkv key ef.Entries

/-! ## Claim C8 -/

/-- The greedy scan of `fuzzyMatch` succeeds exactly on subsequences. -/
theorem fuzzyLoop_iff : ∀ (t p : GoStr), fuzzyLoop t p = true ↔ p.Sublist t := by
  intro t
  induction t with
  | nil =>
    intro p
    cases p with
    | nil => simp [fuzzyLoop]
    | cons q qs => simp [fuzzyLoop]
  | cons x ts ih =>
    intro p
    cases p with
    | nil => simp [fuzzyLoop, List.nil_sublist]
    | cons q qs =>
      rw [fuzzyLoop]
      by_cases hq : x = q
      · subst hq
        rw [if_pos rfl, ih]
        exact ⟨fun h => h.cons₂ x, fun h => List.cons_sublist_cons.mp h⟩
      · rw [if_neg hq, ih]
        constructor
        · exact fun h => h.cons x
        · intro h
          cases h with
          | cons _ h2 => exact h2
          | cons₂ _ h2 => exact absurd rfl hq

theorem fuzzyMatch_eq (t p : GoStr) : fuzzyMatch t p = decide (p.Sublist t) := by
  rw [fuzzyMatch]
  by_cases hp : p = []
  · subst hp
    simp [List.nil_sublist]
  · rw [if_neg hp]
    cases h : fuzzyLoop t p with
    | false =>
      have hns : ¬ p.Sublist t := fun hs => by
        rw [(fuzzyLoop_iff t p).mpr hs] at h
        exact Bool.noConfusion h
      simp [hns]
    | true =>
      have hs := (fuzzyLoop_iff t p).mp h
      simp [hs]

/-- C8: `FilterEntries` returns exactly the key-value entries, in
document order; with a nonempty query, exactly those whose lowercased
key or lowercased value contains the lowercased query as a subsequence
(characters in order, not necessarily contiguous). -/
theorem C8_filterEntries (ef : EnvFile) (query : GoStr) :
    FilterEntries ef query = ef.Entries.filter fun e =>
      decide (e.EType = .keyValueEntry) &&
      (query.isEmpty ||
        decide ((query.map goToLower).Sublist (e.Key.map goToLower)) ||
        decide ((query.map goToLower).Sublist (e.Value.map goToLower))) := by
  rw [FilterEntries]
  by_cases hq : query = []
  · subst hq
    rw [if_pos rfl]
    apply List.filter_congr
    intro e _
    simp
  · rw [if_neg hq]
    simp only [List.filter_filter]
    apply List.filter_congr
    intro e _
    have hne : query.isEmpty = false := by
      cases query
      · exact absurd rfl hq
      · rfl
    rw [fuzzyMatch_eq, fuzzyMatch_eq, hne]
    cases hkv : decide (e.EType = .keyValueEntry) <;>
      cases h1 : decide ((query.map goToLower).Sublist (e.Key.map goToLower)) <;>
      cases h2 : decide ((query.map goToLower).Sublist (e.Value.map goToLower)) <;>
      rfl

/-! ## Claim C3 -/

/-- Scanning a quoted region hits the closing quote and decodes the body,
whatever the quote character is, as long as the body has no unescaped
quote and no dangling backslash. -/
theorem scanChars_closed {q : Char} (hq : q ≠ '\\') :
    ∀ (n : Nat) (body : GoStr), body.length ≤ n → quotedBodyOK q body = true →
    ∀ tail : GoStr, scanChars q (body ++ q :: tail) = .inl (decodeEscapes body) := by
  have hquote : ∀ tail : GoStr, scanChars q (q :: tail) = .inl [] := by
    intro tail
    rcases tail with _ | ⟨t, ts⟩
    · rw [scanChars, if_pos rfl]
    · rw [scanChars, if_neg hq, if_pos rfl]
  intro n
  induction n with
  | zero =>
    intro body hlen hb tail
    have hb0 : body = [] := List.length_eq_zero.mp (by omega)
    subst hb0
    exact hquote tail
  | succ n ih =>
    intro body hlen hb tail
    rcases body with _ | ⟨c, _ | ⟨d, rest⟩⟩
    · exact hquote tail
    · simp only [quotedBodyOK, Bool.and_eq_true, decide_eq_true_eq] at hb
      rw [List.cons_append, List.nil_append, scanChars, if_neg hb.2, if_neg hb.1,
        hquote tail]
      rfl
    · by_cases hc : c = '\\'
      · subst hc
        rw [show quotedBodyOK q ('\\' :: d :: rest) = quotedBodyOK q rest from by
          rw [quotedBodyOK, if_pos rfl]] at hb
        simp only [List.length_cons] at hlen
        show (match scanChars q (rest ++ q :: tail) with
          | Sum.inl v => (Sum.inl (escChar d :: v) : GoStr ⊕ GoStr)
          | Sum.inr v => Sum.inr (escChar d :: v)) =
          Sum.inl (decodeEscapes ('\\' :: d :: rest))
        rw [ih rest (by omega) hb tail,
          show decodeEscapes ('\\' :: d :: rest) = escChar d :: decodeEscapes rest from by
            rw [decodeEscapes, if_pos rfl]]
      · rw [show quotedBodyOK q (c :: d :: rest) =
            (decide (c ≠ q) && quotedBodyOK q (d :: rest)) from by
          rw [quotedBodyOK, if_neg hc]] at hb
        simp only [Bool.and_eq_true, decide_eq_true_eq] at hb
        simp only [List.length_cons] at hlen
        have hstep : scanChars q (c :: (d :: rest ++ q :: tail)) =
            (match scanChars q ((d :: rest) ++ q :: tail) with
            | Sum.inl v => (Sum.inl (c :: v) : GoStr ⊕ GoStr)
            | Sum.inr v => Sum.inr (c :: v)) := by
          show scanChars q (c :: d :: (rest ++ q :: tail)) = _
          rw [scanChars.eq_3, if_neg hc, if_neg hb.1]
          rfl
        rw [List.cons_append, hstep, ih (d :: rest) (by simp only [List.length_cons]; omega) hb.2 tail,
          show decodeEscapes (c :: d :: rest) = c :: decodeEscapes (d :: rest) from by
            rw [decodeEscapes, if_neg hc]]

/-- C3 (amended): the value reader decodes backslash escapes identically
inside double- and single-quoted values (the quote character only chooses
the terminator): backslash-n to newline, backslash-t to tab, backslash-r
to carriage return, doubled backslash to backslash, and any other escaped
character to itself, with no error on unknown escapes.  The claim's
assertion that single-quoted values are consumed verbatim is false; see
the counterexample. -/
theorem C3_quoted_escape_decoding :
    (∀ (q : Char) (body tail : GoStr) (rest : List GoStr),
      (q = '"' ∨ q = sq) → quotedBodyOK q body = true →
      parseQuotedValue (q :: body ++ q :: tail) q rest = (decodeEscapes body, 0)) ∧
    escChar 'n' = '\n' ∧ escChar 't' = '\t' ∧ escChar 'r' = '\r' ∧
    escChar '\\' = '\\' ∧ escChar '"' = '"' ∧ escChar sq = sq ∧
    (∀ c, c ≠ 'n' → c ≠ 't' → c ≠ 'r' → escChar c = c) := by
  refine ⟨?_, rfl, rfl, rfl, rfl, rfl, rfl, ?_⟩
  · intro q body tail rest hq hb
    have hqb : q ≠ '\\' := by
      rcases hq with rfl | rfl <;> decide
    have hscan := scanChars_closed hqb body.length body le_rfl hb tail
    show scanLines q (body ++ q :: tail) rest = (decodeEscapes body, 0)
    rcases rest with _ | ⟨l, ls⟩
    · rw [scanLines, hscan]
    · rw [scanLines, hscan]
  · intro c h1 h2 h3
    rw [escChar, if_neg h1, if_neg h2, if_neg h3]
    by_cases hc : c = '\\'
    · rw [if_pos hc, hc]
    · rw [if_neg hc]

/-- C3 counterexample: in a single-quoted value the backslash-n sequence
is decoded to a newline rather than kept verbatim, so the entry's value
is the two characters `a`, newline, `b` and not the four characters
`a`, backslash, `n`, `b`. -/
theorem C3_counterexample :
    (parseDoc (gs "KEY=" ++ sq :: (gs "a\\nb" ++ [sq]))).Entries =
      [⟨.keyValueEntry, gs "KEY", gs "a\nb", [], 1, false, true⟩] ∧
    (gs "a\nb" : GoStr) ≠ gs "a\\nb" := by decide

/-- C3 witness: the single-quote instance of the amended theorem at a
concrete body. -/
theorem C3_witness :
    (sq = '"' ∨ sq = sq) ∧ quotedBodyOK sq (gs "a\\nb") = true ∧
    parseQuotedValue (sq :: gs "a\\nb" ++ sq :: ([] : GoStr)) sq [] =
      (decodeEscapes (gs "a\\nb"), 0) :=
  ⟨Or.inr rfl, by decide,
    C3_quoted_escape_decoding.1 sq (gs "a\\nb") [] [] (Or.inr rfl) (by decide)⟩

/-! ## Claim C6 -/

theorem trimSpace_trimLeft (v : GoStr) : trimSpace (trimLeft v) = trimSpace v := by
  rw [trimSpace, ← trim_comm, trimLeft_idem]
  rfl

/-- The value reader on an unquoted value with a trailing hash comment:
the result is the text before the hash with surrounding whitespace
trimmed, nothing is stored for the comment, and no extra line is
consumed. -/
theorem parseValue_inline (v c2 : GoStr) (rest : List GoStr)
    (hh : '#' ∉ v) (hvl : trimLeft v ≠ [])
    (hq1 : (trimLeft v).head? ≠ some '"') (hq2 : (trimLeft v).head? ≠ some sq)
    (hc2 : trimRight c2 = c2) :
    parseValue (v ++ '#' :: c2) rest = (trimSpace v, 0) := by
  have h5 : trimRight (v ++ '#' :: c2) = v ++ '#' :: c2 := by
    rw [trimRight_append v (by rw [trimRight_cons_of_nonspace _ (by decide)]; simp),
      trimRight_cons_of_nonspace _ (by decide), hc2]
  have hts : trimSpace (v ++ '#' :: c2) = trimLeft v ++ '#' :: c2 := by
    rw [trimSpace, h5]
    exact trimLeft_append _ hvl
  rcases hlv : trimLeft v with _ | ⟨v0, vt⟩
  · exact absurd hlv hvl
  have hv0q : ¬(v0 = '"' ∨ v0 = sq) := by
    rintro (rfl | rfl)
    · exact hq1 (by rw [hlv]; rfl)
    · exact hq2 (by rw [hlv]; rfl)
  have hnm : '#' ∉ v0 :: vt := by
    intro hm
    rw [← hlv] at hm
    exact hh ((List.dropWhile_suffix goIsSpace).sublist.subset hm)
  have hidx : idxOf '#' (v0 :: (vt ++ '#' :: c2)) = some (v0 :: vt).length :=
    idxOf_append_of_not_mem c2 hnm
  rw [hlv] at hts
  simp only [parseValue, hts]
  rw [if_neg (by simp), if_neg (by simpa using hv0q), List.cons_append, hidx]
  show (trimSpace (List.take (v0 :: vt).length (v0 :: (vt ++ '#' :: c2))), 0) =
    (trimSpace v, 0)
  rw [show List.take (v0 :: vt).length (v0 :: (vt ++ '#' :: c2)) = v0 :: vt from
    List.take_left (v0 :: vt) ('#' :: c2), ← hlv, trimSpace_trimLeft]

/-- C6 (amended): a line `key=value#comment` with an unquoted value
parses to exactly one key-value entry whose value is the text before the
hash with surrounding whitespace trimmed; the trailing comment text is
discarded: it is neither stored in the entry's comment field (which
stays empty) nor emitted as a separate comment entry.  The claim's
assertion that the comment is reattached to the entry is false; see the
counterexample. -/
theorem C6_inline_comment (k v c : GoStr) (rest : List GoStr) (i : Nat)
    (hk : isValidKey k = true)
    (hh : '#' ∉ v)
    (hvl : trimLeft v ≠ [])
    (hq1 : (trimLeft v).head? ≠ some '"')
    (hq2 : (trimLeft v).head? ≠ some sq) :
    parseLines ((k ++ '=' :: (v ++ '#' :: c)) :: rest) i =
      ⟨.keyValueEntry, k, trimSpace v, [], i + 1, false, isSecretKey k⟩ ::
        parseLines rest (i + 1) := by
  obtain ⟨hkne, hkmem⟩ := isValidKey_parts hk
  rcases hck : k with _ | ⟨kh, kt⟩
  · exact absurd hck hkne
  rw [← hck]
  have hkh : isKeyChar kh = true := hkmem kh (by rw [hck]; simp)
  have h1 : trimRight ('#' :: c) = '#' :: trimRight c :=
    trimRight_cons_of_nonspace _ (by decide)
  have h2 : trimRight (v ++ '#' :: c) = v ++ '#' :: trimRight c := by
    rw [trimRight_append v (by rw [h1]; simp), h1]
  have h3 : trimRight ('=' :: (v ++ '#' :: c)) = '=' :: (v ++ '#' :: trimRight c) := by
    rw [trimRight_cons_of_nonspace _ (by decide), h2]
  have h4 : trimRight (k ++ '=' :: (v ++ '#' :: c)) =
      k ++ '=' :: (v ++ '#' :: trimRight c) := by
    rw [trimRight_append k (by rw [h3]; simp), h3]
  have htr : trimSpace (k ++ '=' :: (v ++ '#' :: c)) =
      k ++ '=' :: (v ++ '#' :: trimRight c) := by
    rw [trimSpace, h4]
    exact trimLeft_eq_self_of_head (c := kh) (by rw [hck]; rfl) (keyChar_not_space hkh)
  have hne : trimSpace (k ++ '=' :: (v ++ '#' :: c)) ≠ [] := by
    rw [htr, hck]
    simp
  have hcm : startsWith (gs "#") (trimSpace (k ++ '=' :: (v ++ '#' :: c))) = false := by
    rw [htr, hck, List.cons_append]
    exact startsWith_hash_false _ (keyChar_ne hkh).1
  have hex : startsWith (gs "export ") (trimSpace (k ++ '=' :: (v ++ '#' :: c))) =
      false := by
    rw [htr]
    exact startsWith_export_false _ hk
  have ht2 : (if (false : Bool) then
      trimSpace ((trimSpace (k ++ '=' :: (v ++ '#' :: c))).drop 7)
      else trimSpace (k ++ '=' :: (v ++ '#' :: c))) =
      k ++ '=' :: (v ++ '#' :: trimRight c) := by
    rw [if_neg (by simp)]
    exact htr
  have heq : idxOf '=' (k ++ '=' :: (v ++ '#' :: trimRight c)) = some k.length :=
    idxOf_append_of_not_mem _ (validKey_eq_not_mem hk)
  have hkeyeq : trimSpace ((k ++ '=' :: (v ++ '#' :: trimRight c)).take k.length) = k := by
    rw [show (k ++ '=' :: (v ++ '#' :: trimRight c)).take k.length = k from
      List.take_left _ _, validKey_trimSpace hk]
  have hdrop : (k ++ '=' :: (v ++ '#' :: trimRight c)).drop (k.length + 1) =
      v ++ '#' :: trimRight c := by
    rw [show k ++ '=' :: (v ++ '#' :: trimRight c) =
      (k ++ ['=']) ++ (v ++ '#' :: trimRight c) by simp,
      show k.length + 1 = (k ++ ['=']).length by simp]
    exact List.drop_left _ _
  have hv2 : parseValue ((k ++ '=' :: (v ++ '#' :: trimRight c)).drop (k.length + 1))
      rest = (trimSpace v, 0) := by
    rw [hdrop]
    exact parseValue_inline v (trimRight c) rest hh hvl hq1 hq2 (trimRight_idem c)
  have hfin := parseLines_kv rest i k.length false hne hcm hex ht2 heq
    (by rw [hkeyeq]; exact hkne) (by rw [hkeyeq]; exact hk) hv2
  rw [hfin, hkeyeq]

/-- C6 counterexample: parsing `KEY=value # note` yields a single
key-value entry whose comment field is empty, not the trailing comment
text, which is discarded. -/
theorem C6_counterexample :
    (parseDoc (gs "KEY=value # note")).Entries =
      [⟨.keyValueEntry, gs "KEY", gs "value", [], 1, false, true⟩] ∧
    (gs "# note" : GoStr) ≠ [] ∧ (gs "note" : GoStr) ≠ [] := by decide

/-- C6 witness: the amended theorem at the concrete line
`KEY=value # note`. -/
theorem C6_witness :
    isValidKey (gs "KEY") = true ∧
    parseLines ((gs "KEY" ++ '=' :: (gs "value " ++ '#' :: gs " note")) :: [gs "B=2"]) 0 =
      ⟨.keyValueEntry, gs "KEY", trimSpace (gs "value "), [], 1, false,
        isSecretKey (gs "KEY")⟩ :: parseLines [gs "B=2"] 1 :=
  ⟨by decide, C6_inline_comment (gs "KEY") (gs "value ") (gs " note") [gs "B=2"] 0
    (by decide) (by decide) (by decide) (by decide) (by decide)⟩

/-! ## Claim C7 -/

/-- C7 (amended): `Parse` always returns a nil error, and a line that is
not blank, not a comment, and after optional export stripping either has
no equals sign or has a left-hand side that trims to an empty or invalid
key (per `isValidKey`, which accepts Unicode letters, not only the ASCII
shape the claim names) contributes no entry at all.  The ASCII identifier
shape in the claim is too narrow: see the counterexample, where a
Latin-1 letter key is accepted. -/
theorem C7_parse_total_and_skip (input line : GoStr) (rest : List GoStr) (i : Nat)
    (hne : trimSpace line ≠ [])
    (hcm : startsWith (gs "#") (trimSpace line) = false)
    (hbad : ∀ eqIdx : Nat, idxOf '='
        (if startsWith (gs "export ") (trimSpace line) then
          trimSpace ((trimSpace line).drop 7) else trimSpace line) = some eqIdx →
      trimSpace ((if startsWith (gs "export ") (trimSpace line) then
          trimSpace ((trimSpace line).drop 7) else trimSpace line).take eqIdx) = [] ∨
      isValidKey (trimSpace ((if startsWith (gs "export ") (trimSpace line) then
          trimSpace ((trimSpace line).drop 7) else trimSpace line).take eqIdx)) =
        false) :
    Parse input = .ok (parseDoc input) ∧
    parseLines (line :: rest) i = parseLines rest (i + 1) := by
  refine ⟨rfl, ?_⟩
  rcases heq : idxOf '='
      (if startsWith (gs "export ") (trimSpace line) then
        trimSpace ((trimSpace line).drop 7) else trimSpace line) with _ | eqIdx
  · exact parseLines_skipNoEq rest i hne hcm heq
  · exact parseLines_skipBadKey rest i eqIdx hne hcm rfl heq (hbad eqIdx heq)

/-- C7 counterexample: the key `é` does not match the ASCII identifier
shape the claim prescribes, yet the line `é=1` produces a key-value
entry rather than being dropped. -/
theorem C7_counterexample :
    specAsciiIdent (gs "é") = false ∧
    kvTuples (parseDoc (gs "é=1")).Entries = [(gs "é", gs "1", false)] := by decide

/-- C7 witness: the line `1abc=5` has an equals sign but an invalid key,
so it is silently dropped while parsing continues on the next line. -/
theorem C7_witness :
    trimSpace (gs "1abc=5") ≠ [] ∧
    startsWith (gs "#") (trimSpace (gs "1abc=5")) = false ∧
    Parse (gs "x") = .ok (parseDoc (gs "x")) ∧
    parseLines [gs "1abc=5", gs "A=1"] 0 = parseLines [gs "A=1"] 1 := by
  refine ⟨by decide, by decide, ?_, ?_⟩
  · exact (C7_parse_total_and_skip (gs "x") (gs "1abc=5") [gs "A=1"] 0 (by decide)
      (by decide) (fun eqIdx h => by
        have h4 : eqIdx = 4 := by
          rw [show idxOf '=' (if startsWith (gs "export ")
            (trimSpace (gs "1abc=5")) = true then
            trimSpace ((trimSpace (gs "1abc=5")).drop 7)
            else trimSpace (gs "1abc=5")) = some 4 from by decide] at h
          exact (Option.some.inj h).symm
        subst h4
        exact Or.inr (by decide))).1
  · exact (C7_parse_total_and_skip (gs "x") (gs "1abc=5") [gs "A=1"] 0 (by decide)
      (by decide) (fun eqIdx h => by
        have h4 : eqIdx = 4 := by
          rw [show idxOf '=' (if startsWith (gs "export ")
            (trimSpace (gs "1abc=5")) = true then
            trimSpace ((trimSpace (gs "1abc=5")).drop 7)
            else trimSpace (gs "1abc=5")) = some 4 from by decide] at h
          exact (Option.some.inj h).symm
        subst h4
        exact Or.inr (by decide))).2

end EnvTui
